import Mathlib

/-!
Shallow embedding of `huge_memory_bench.cpp` (hudson-trading/hrtbeat).

The benchmark program has three parts relevant to the specification:
 * the index cache (`generateIndices` / `readIndices`), which persists the
   random access positions to a line-oriented file;
 * the memory-region / main control flow (`mainModel`), which maps a large
   anonymous region, optionally applies THP advice, runs both timed phases
   and unmaps;
 * the two timed phases (`initArena` for the linear initialization,
   `accessLoop` for the randomized accumulation).

The file system is modelled explicitly: a persisted file is a list of the
chunks `fgets` would return (each chunk a `List Char`), `none` standing for a
file that cannot be opened.  The random generator is modelled as a stream of
raw draws `rng : Nat → Nat`; `uniform_int_distribution` over `[0, endIdx-1]`
maps each draw into range by `% endIdx`.  Machine doubles are modelled as
exact rationals except for claim C8, where binary64 rounding of
`endIdx * 0.03` is reproduced bit-exactly.
-/

set_option maxRecDepth 4096

/-! ### Character-level model of `strtol(buf, &endPtr, 10)` -/

/-- Characters accepted by C `isspace` in the default locale. -/
def isSpaceC (c : Char) : Bool :=
  c = ' ' || c = '\t' || c = '\n' || c = '\x0b' || c = '\x0c' || c = '\r'

/-- Decimal digit test, as in `strtol`'s base-10 scan. -/
def isDigitC (c : Char) : Bool :=
  48 ≤ c.toNat && c.toNat ≤ 57

/-- `LONG_MAX` on the 64-bit platform the benchmark targets. -/
def LONG_MAX : Nat := 9223372036854775807

/-- Consume the longest run of decimal digits, accumulating the value,
and return the value together with the unconsumed remainder
(the position `strtol` leaves in `endPtr`). -/
def digitsVal : Nat → List Char → Nat × List Char
  | acc, [] => (acc, [])
  | acc, c :: cs =>
    if isDigitC c then digitsVal (acc * 10 + (c.toNat - 48)) cs else (acc, c :: cs)

/-- Body of `strtolModel` once the leading whitespace has been skipped:
`orig` is the original pointer (returned in `endPtr` when no digits are
found), `t` the rest of the buffer. -/
def strtolCore (orig t : List Char) : Int × List Char :=
  match t with
  | [] => (0, orig)
  | c :: rest =>
    if c = '-' then
      match rest with
      | [] => (0, orig)
      | d :: _ =>
        if isDigitC d then
          let p := digitsVal 0 rest
          (-(Int.ofNat (min p.1 (LONG_MAX + 1))), p.2)
        else (0, orig)
    else if c = '+' then
      match rest with
      | [] => (0, orig)
      | d :: _ =>
        if isDigitC d then
          let p := digitsVal 0 rest
          (Int.ofNat (min p.1 LONG_MAX), p.2)
        else (0, orig)
    else if isDigitC c then
      let p := digitsVal 0 t
      (Int.ofNat (min p.1 LONG_MAX), p.2)
    else (0, orig)

/-- Model of `strtol(buf, &endPtr, 10)`: skip leading whitespace, accept an
optional sign, then the longest run of digits; on overflow the result is
clamped to `LONG_MAX` / `LONG_MIN`.  If no digits are found the value is `0`
and `endPtr` is the original pointer. -/
def strtolModel (s : List Char) : Int × List Char :=
  strtolCore s (s.dropWhile isSpaceC)

/-- One iteration body of the read loop of `readIndices`: parse the chunk with
`strtol` and apply the validation
`(*endPtr != '\n' && *endPtr) || idx < 0 || (unsigned long) idx >= endIdx`.
Returns `some idx` for a valid line, `none` for an invalid one. -/
def chunkParse (endIdx : Nat) (buf : List Char) : Option Nat :=
  let p := strtolModel buf
  let badTail : Bool :=
    match p.2 with
    | [] => false
    | c :: _ => !(c = '\n') && !(c = '\x00')
  if badTail || p.1 < 0 || endIdx ≤ p.1.toNat then none else some p.1.toNat

/-! ### `fprintf(fd, "%lu\n", idx)`: decimal rendering of an index -/

/-- Digit character for a value `0 ≤ n ≤ 9`. -/
def digitChar (n : Nat) : Char := Char.ofNat (48 + n)

/-- Fuel-driven decimal rendering (most significant digit first). -/
def natToDecAux : Nat → Nat → List Char
  | 0, _ => []
  | fuel + 1, n =>
    if n < 10 then [digitChar n] else natToDecAux fuel (n / 10) ++ [digitChar (n % 10)]

/-- Decimal rendering of `n`, as `printf("%lu", n)` produces it. -/
def natToDec (n : Nat) : List Char := natToDecAux (n + 1) n

/-- The line `fprintf(fd, "%lu\n", idx)` appends to the persisted file. -/
def encodeLine (n : Nat) : List Char := natToDec n ++ ['\n']

/-! ### `generateIndices` -/

/-- The sequence of draws of `uniform_int_distribution(0, endIdx - 1)` for a
raw generator stream `rng`: the `i`-th generated index. -/
def genValues (rng : Nat → Nat) (endIdx count : Nat) : List Nat :=
  (List.range count).map fun i => rng i % endIdx

/-- `generateIndices(indices, endIdx, numIndices)`: open the cache file for
writing (truncating it), then `numIndices` times draw an index, print it on
its own line and append it to the vector.  `canWrite` is the success of
`fopen(CACHED_INDICES_FILE, "w")`; failure aborts with `false` (modelled as
`none`).  Returns the vector contents and the file contents. -/
def generateIndices (rng : Nat → Nat) (endIdx count : Nat) (canWrite : Bool) :
    Option (List Nat × List (List Char)) :=
  if canWrite then
    some (genValues rng endIdx count, (genValues rng endIdx count).map encodeLine)
  else none

/-! ### `readIndices` -/

/-- The `while (fgets(...))` loop of `readIndices`: `acc` is the vector built
so far, `m` the running `maxIdx`.  An invalid line breaks out of the loop;
after a valid line is stored the loop also breaks once
`indices->size() > numIndices`. -/
def readLoop (endIdx count : Nat) : List (List Char) → List Nat → Nat → List Nat × Nat
  | [], acc, m => (acc, m)
  | buf :: rest, acc, m =>
    match chunkParse endIdx buf with
    | none => (acc, m)
    | some v =>
      let acc' := acc ++ [v]
      let m' := max m v
      if count < acc'.length then (acc', m') else readLoop endIdx count rest acc' m'

/-- Result of one `readIndices` call: the in-memory vector, the persisted file
as left on disk afterwards, and whether the regeneration path
(`"Invalid file, regenerating"` / initial generation) was taken. -/
structure LoadResult where
  indices : List Nat
  file : List (List Char)
  regenerated : Bool
deriving DecidableEq, Repr

/-- The regeneration tail of `readIndices`: call `generateIndices` and fail
exactly when it fails. -/
def regenResult (rng : Nat → Nat) (endIdx count : Nat) (canWrite : Bool) :
    Option LoadResult :=
  match generateIndices rng endIdx count canWrite with
  | none => none
  | some lf => some ⟨lf.1, lf.2, true⟩

/-- `readIndices(indices, endIdx, numIndices)`: if the file cannot be opened,
generate a fresh one.  Otherwise run the read loop, and accept the read-back
vector unless `(endIdx - maxIdx) > 10000000 || indices->size() != numIndices`,
in which case the vector is cleared and regenerated. -/
def readIndices (rng : Nat → Nat) (endIdx count : Nat)
    (file : Option (List (List Char))) (canWrite : Bool) : Option LoadResult :=
  match file with
  | none => regenResult rng endIdx count canWrite
  | some chunks =>
    let r := readLoop endIdx count chunks [] 0
    if 10000000 < endIdx - r.2 ∨ r.1.length ≠ count then
      regenResult rng endIdx count canWrite
    else
      some ⟨r.1, chunks, false⟩

/-- Maximum of a list of naturals, with the same `0` seed as the
`maxIdx` accumulator of the read loop. -/
def listMax (l : List Nat) : Nat := l.foldl max 0

/-- The values of the lines of a file that parse as valid indices, in file
order. -/
def parsedVals (endIdx : Nat) (chunks : List (List Char)) : List Nat :=
  chunks.filterMap (chunkParse endIdx)

/-! ### Transparent-huge-page state check and the control flow of `main` -/

/-- Test that `pat` starts the list (helper for the substring search of
`string::find`). -/
def isPrefixOfC : List Char → List Char → Bool
  | [], _ => true
  | _ :: _, [] => false
  | a :: as, b :: bs => (a = b) && isPrefixOfC as bs

/-- Substring search used to model `str.find("[never]") == string::npos`. -/
def containsSub (pat : List Char) : List Char → Bool
  | [] => isPrefixOfC pat []
  | c :: rest => isPrefixOfC pat (c :: rest) || containsSub pat rest

/-- The `-m` handler's check of `/sys/kernel/mm/transparent_hugepage/enabled`:
`none` models `ifstream` failing to open, `some none` models `getline`
failing; otherwise THP counts as enabled exactly when the first line does not
contain `"[never]"`. -/
def thpEnabled (f : Option (Option (List Char))) : Bool :=
  match f with
  | some (some line) => !containsSub ("[never]".toList) line
  | _ => false

/-- Observable memory-mapping events of a run. -/
inductive Ev where
  | mapped
  | unmapped
deriving DecidableEq, Repr

/-- Exit code of the process together with the mapping events it performed,
in order. -/
structure MainOut where
  exitCode : Nat
  events : List Ev
deriving DecidableEq, Repr

/-- Control flow of `main` after option parsing, with every external effect a
parameter: `thp`/`hugetlb` are the `-m`/`-t` flags, `thpFile` the THP state
file, `idxFile`/`canWrite` the persisted index file, `mmapOk` whether `mmap`
returns something other than `MAP_FAILED`, `madviseOk` whether
`madvise(MADV_HUGEPAGE)` returns 0.  The THP feature check runs inside the
`-m` option handler, hence before the indices are read and before `mmap`.
`munmap` is called only at the end of the success path. -/
def mainModel (thp hugetlb : Bool) (thpFile : Option (Option (List Char)))
    (rng : Nat → Nat) (idxFile : Option (List (List Char))) (canWrite : Bool)
    (endIdx count : Nat) (mmapOk madviseOk : Bool) : MainOut :=
  let _ := hugetlb
  if thp && !thpEnabled thpFile then ⟨1, []⟩
  else
    match readIndices rng endIdx count idxFile canWrite with
    | none => ⟨1, []⟩
    | some _ =>
      if !mmapOk then ⟨1, []⟩
      else if thp && !madviseOk then ⟨1, [Ev.mapped]⟩
      else ⟨0, [Ev.mapped, Ev.unmapped]⟩

/-! ### The two timed phases -/

/-- One iteration of the initialization loop:
`array[i] = 1e-9 * double(i % 79)`, doubles modelled as exact rationals. -/
def initStep (arr : Nat → ℚ) (i : Nat) : Nat → ℚ :=
  fun j => if j = i then (1 / 1000000000 : ℚ) * ((i % 79 : Nat) : ℚ) else arr j

/-- The order in which the initialization loop visits the slots:
`for (unsigned long i = 0; i < endIdx; ++i)`. -/
def initWriteOrder (endIdx : Nat) : List Nat := List.range endIdx

/-- The whole initialization phase, starting from the arena contents `arr0`
(all zeros for a fresh anonymous mapping). -/
def initArena (endIdx : Nat) (arr0 : Nat → ℚ) : Nat → ℚ :=
  (initWriteOrder endIdx).foldl initStep arr0

/-- The access phase `for (unsigned long u : indices) result += array[u];`,
parametric in the accumulation operation so that the iteration order is
meaningful even for a non-associative (floating-point) addition. -/
def accessLoop {α : Type} (add : α → α → α) (arena : Nat → α)
    (indices : List Nat) (start : α) : α :=
  indices.foldl (fun result u => add result (arena u)) start

/-- Page-size policy selected on the command line. -/
inductive PageMode where
  | standard
  | thpMode
  | hugetlbMode
deriving DecidableEq, Repr

/-- The reported accumulated value of a run: the arena is initialized by the
linear phase and then summed over `indices` in persisted order.  The page
mode affects only the `mmap` flags, not the data flow, exactly as in the
source. -/
def benchRun (pm : PageMode) (endIdx : Nat) (indices : List Nat) : ℚ :=
  let _ := pm
  accessLoop (· + ·) (initArena endIdx (fun _ => 0)) indices 0

/-! ### Binary64 model of `numIndices = endIdx * 0.03` -/

/-- Number of binary digits of `n` (fuel-driven so that it reduces in the
kernel; 64 bits of fuel suffice for every value the benchmark can produce). -/
def bitlenAux : Nat → Nat → Nat
  | 0, _ => 0
  | fuel + 1, n => if n = 0 then 0 else bitlenAux fuel (n / 2) + 1

/-- Bit length of a (< 2⁶⁴) natural number. -/
def bitlen (n : Nat) : Nat := bitlenAux 64 n

/-- Significand of the binary64 value nearest `0.03`:
`(double)0.03 = 8646911284551352 × 2⁻⁵⁸`. -/
def DBL003SIG : Nat := 8646911284551352

/-- Round `n` to 53 significant bits, ties to even: returns `(q, t)` with the
rounded value `q · 2ᵗ`. -/
def rne53 (n : Nat) : Nat × Nat :=
  let k := bitlen n
  if k ≤ 53 then (n, 0)
  else
    let t := k - 53
    let q := n / 2 ^ t
    let r := n % 2 ^ t
    let h := 2 ^ (t - 1)
    (if h < r ∨ (r = h ∧ q % 2 = 1) then q + 1 else q, t)

/-- The value `unsigned long numIndices = endIdx * 0.03;` computes for an
array of `sizeGiB` GiB: `endIdx = sizeGiB · 2²⁷` is converted to double
(exactly, being < 2⁵³) and multiplied by the double nearest `0.03` with IEEE
round-to-nearest-even; the exact product is
`endIdx · DBL003SIG · 2⁻⁵⁸ = (sizeGiB · DBL003SIG) · 2⁻³¹`, so rounding its
integer numerator to 53 bits rounds the product, and the rounded double is
truncated back to an unsigned integer. -/
def numIndicesComputed (sizeGiB : Nat) : Nat :=
  let p := rne53 (sizeGiB * DBL003SIG)
  p.1 * 2 ^ p.2 / 2 ^ 31

/-! ### Lemmas: decimal rendering and its round trip through `strtol` -/

theorem digitChar_facts : ∀ n : Nat, n < 10 →
    isDigitC (digitChar n) = true ∧ (digitChar n).toNat - 48 = n ∧
    isSpaceC (digitChar n) = false ∧ digitChar n ≠ '-' ∧ digitChar n ≠ '+' := by
  decide

theorem isDigitC_not_space {c : Char} (h : isDigitC c = true) :
    isSpaceC c = false ∧ c ≠ '-' ∧ c ≠ '+' ∧ c ≠ '\n' := by
  have h1 : c ≠ ' ' := fun e => absurd (e ▸ h) (by decide)
  have h2 : c ≠ '\t' := fun e => absurd (e ▸ h) (by decide)
  have h3 : c ≠ '\n' := fun e => absurd (e ▸ h) (by decide)
  have h4 : c ≠ '\x0b' := fun e => absurd (e ▸ h) (by decide)
  have h5 : c ≠ '\x0c' := fun e => absurd (e ▸ h) (by decide)
  have h6 : c ≠ '\r' := fun e => absurd (e ▸ h) (by decide)
  have h7 : c ≠ '-' := fun e => absurd (e ▸ h) (by decide)
  have h8 : c ≠ '+' := fun e => absurd (e ▸ h) (by decide)
  refine ⟨?_, h7, h8, h3⟩
  simp [isSpaceC, h1, h2, h3, h4, h5, h6]

theorem natToDecAux_fuel : ∀ f₁ : Nat, ∀ f₂ n : Nat, n < f₁ → n < f₂ →
    natToDecAux f₁ n = natToDecAux f₂ n := by
  intro f₁
  induction f₁ with
  | zero => intro f₂ n h1 _; exact absurd h1 (Nat.not_lt_zero n)
  | succ f ih =>
    intro f₂ n h1 h2
    match f₂, h2 with
    | g + 1, h2 =>
      by_cases hn : n < 10
      · simp [natToDecAux, hn]
      · have hten : 10 ≤ n := Nat.le_of_not_lt hn
        have hdiv : n / 10 < n := Nat.div_lt_self (by omega) (by omega)
        simp only [natToDecAux, if_neg hn]
        rw [ih g (n / 10) (by omega) (by omega)]

theorem natToDec_succ {n : Nat} (h : 10 ≤ n) :
    natToDec n = natToDec (n / 10) ++ [digitChar (n % 10)] := by
  have hdiv : n / 10 < n := Nat.div_lt_self (by omega) (by omega)
  show natToDecAux (n + 1) n = _
  simp only [natToDecAux, if_neg (Nat.not_lt.mpr h)]
  rw [natToDecAux_fuel n (n / 10 + 1) (n / 10) (by omega) (by omega)]
  rfl

theorem natToDec_head : ∀ n : Nat, ∃ c cs, natToDec n = c :: cs ∧ isDigitC c = true := by
  intro n
  induction n using Nat.strong_induction_on with
  | _ n ih =>
    by_cases hn : n < 10
    · refine ⟨digitChar n, [], ?_, (digitChar_facts n hn).1⟩
      simp [natToDec, natToDecAux, hn]
    · have h10 : 10 ≤ n := Nat.le_of_not_lt hn
      have hdiv : n / 10 < n := Nat.div_lt_self (by omega) (by omega)
      obtain ⟨c, cs, hcons, hdig⟩ := ih (n / 10) hdiv
      exact ⟨c, cs ++ [digitChar (n % 10)], by rw [natToDec_succ h10, hcons]; rfl, hdig⟩

theorem digitsVal_natToDec : ∀ n acc : Nat, ∀ rest : List Char,
    digitsVal acc (natToDec n ++ rest) =
      digitsVal (acc * 10 ^ (natToDec n).length + n) rest := by
  intro n
  induction n using Nat.strong_induction_on with
  | _ n ih =>
    intro acc rest
    by_cases hn : n < 10
    · have hd : natToDec n = [digitChar n] := by simp [natToDec, natToDecAux, hn]
      rw [hd]
      simp only [List.cons_append, List.nil_append, digitsVal,
        (digitChar_facts n hn).1, if_true, (digitChar_facts n hn).2.1,
        List.length_cons, List.length_nil]
      norm_num
    · have h10 : 10 ≤ n := Nat.le_of_not_lt hn
      have hdiv : n / 10 < n := Nat.div_lt_self (by omega) (by omega)
      have hmod : n % 10 < 10 := Nat.mod_lt n (by omega)
      rw [natToDec_succ h10, List.append_assoc, List.cons_append, List.nil_append,
        ih (n / 10) hdiv acc (digitChar (n % 10) :: rest)]
      simp only [digitsVal, (digitChar_facts _ hmod).1, if_true,
        (digitChar_facts _ hmod).2.1]
      have hdm : n / 10 * 10 + n % 10 = n := by omega
      have harg : (acc * 10 ^ (natToDec (n / 10)).length + n / 10) * 10 + n % 10
          = acc * 10 ^ ((natToDec (n / 10)).length + 1) + n := by
        calc (acc * 10 ^ (natToDec (n / 10)).length + n / 10) * 10 + n % 10
            = acc * (10 ^ (natToDec (n / 10)).length * 10) + (n / 10 * 10 + n % 10) := by
              ring
          _ = acc * 10 ^ ((natToDec (n / 10)).length + 1) + n := by rw [hdm, pow_succ]
      have hlen2 : (natToDec (n / 10) ++ [digitChar (n % 10)]).length
          = (natToDec (n / 10)).length + 1 := by simp
      rw [hlen2, harg]

theorem strtol_encodeLine (v : Nat) :
    strtolModel (encodeLine v) = (Int.ofNat (min v LONG_MAX), ['\n']) := by
  obtain ⟨c, cs, hcons, hdig⟩ := natToDec_head v
  obtain ⟨hns, hnm, hnp, _⟩ := isDigitC_not_space hdig
  have hline : encodeLine v = c :: (cs ++ ['\n']) := by
    simp [encodeLine, hcons]
  have hdrop : (encodeLine v).dropWhile isSpaceC = encodeLine v := by
    rw [hline, List.dropWhile_cons_of_neg (by simp [hns])]
  rw [strtolModel, hdrop, hline, strtolCore.eq_def]
  dsimp only
  rw [if_neg hnm, if_neg hnp, if_pos hdig]
  have hval : digitsVal 0 (c :: (cs ++ ['\n'])) = (v, ['\n']) := by
    rw [← hline]
    show digitsVal 0 (natToDec v ++ ['\n']) = (v, ['\n'])
    rw [digitsVal_natToDec v 0 ['\n']]
    simp [digitsVal, show isDigitC '\n' = false by decide]
  rw [hval]

theorem chunkParse_encodeLine {endIdx v : Nat} (hv : v < endIdx)
    (hbound : endIdx ≤ 2 ^ 63) : chunkParse endIdx (encodeLine v) = some v := by
  have hmin : min v LONG_MAX = v := by
    have : v ≤ LONG_MAX := by
      have : v < 2 ^ 63 := lt_of_lt_of_le hv hbound
      simp only [LONG_MAX]; omega
    exact min_eq_left this
  rw [chunkParse, strtol_encodeLine, hmin]
  simp [hv]

/-! ### Lemmas: the read loop of `readIndices` -/

theorem readLoop_invalid {endIdx count : Nat} {b : List Char}
    (rest : List (List Char)) (acc : List Nat) (m : Nat)
    (hb : chunkParse endIdx b = none) :
    readLoop endIdx count (b :: rest) acc m = (acc, m) := by
  simp [readLoop, hb]

theorem readLoop_valid_pre {endIdx count : Nat} :
    ∀ chunks rest : List (List Char), ∀ acc : List Nat, ∀ m : Nat,
    (∀ c ∈ chunks, (chunkParse endIdx c).isSome = true) →
    acc.length + chunks.length ≤ count →
    readLoop endIdx count (chunks ++ rest) acc m =
      readLoop endIdx count rest (acc ++ parsedVals endIdx chunks)
        (List.foldl max m (parsedVals endIdx chunks)) := by
  intro chunks
  induction chunks with
  | nil => intro rest acc m _ _; simp [parsedVals]
  | cons c cs ih =>
    intro rest acc m hvalid hlen
    obtain ⟨v, hv⟩ := Option.isSome_iff_exists.mp (hvalid c (List.mem_cons_self c cs))
    have hpv : parsedVals endIdx (c :: cs) = v :: parsedVals endIdx cs := by
      simp [parsedVals, List.filterMap_cons, hv]
    have hnb : ¬ count < (acc ++ [v]).length := by
      simp only [List.length_append, List.length_cons, List.length_nil]
      simp only [List.length_cons] at hlen
      omega
    rw [hpv, List.cons_append]
    show (match chunkParse endIdx c with
      | none => (acc, m)
      | some v =>
        let acc' := acc ++ [v]
        let m' := max m v
        if count < acc'.length then (acc', m')
        else readLoop endIdx count (cs ++ rest) acc' m') = _
    rw [hv]
    simp only [if_neg hnb]
    rw [ih rest (acc ++ [v]) (max m v)
      (fun d hd => hvalid d (List.mem_cons_of_mem c hd))
      (by simp only [List.length_append, List.length_cons, List.length_nil] at *; omega)]
    rw [List.append_assoc, List.singleton_append, List.foldl_cons]

theorem readLoop_all_valid {endIdx count : Nat} (chunks : List (List Char))
    (hvalid : ∀ c ∈ chunks, (chunkParse endIdx c).isSome = true)
    (hlen : chunks.length ≤ count) :
    readLoop endIdx count chunks [] 0 =
      (parsedVals endIdx chunks, listMax (parsedVals endIdx chunks)) := by
  have := readLoop_valid_pre chunks [] [] 0 hvalid (by simpa using hlen)
  rw [List.append_nil] at this
  rw [this]
  simp [readLoop, listMax]

theorem readLoop_stops_at_invalid {endIdx count : Nat}
    (pre : List (List Char)) (bad : List Char) (post : List (List Char))
    (hvalid : ∀ c ∈ pre, (chunkParse endIdx c).isSome = true)
    (hbad : chunkParse endIdx bad = none)
    (hlen : pre.length ≤ count) :
    readLoop endIdx count (pre ++ bad :: post) [] 0 =
      (parsedVals endIdx pre, listMax (parsedVals endIdx pre)) := by
  rw [readLoop_valid_pre pre (bad :: post) [] 0 hvalid (by simpa using hlen),
    readLoop_invalid post _ _ hbad]
  simp [listMax]

theorem readLoop_length_le {endIdx count : Nat} :
    ∀ chunks : List (List Char), ∀ acc : List Nat, ∀ m : Nat,
    acc.length ≤ count →
    (readLoop endIdx count chunks acc m).1.length ≤ count + 1 := by
  intro chunks
  induction chunks with
  | nil => intro acc m h; simpa [readLoop] using Nat.le_succ_of_le h
  | cons c cs ih =>
    intro acc m h
    show (match chunkParse endIdx c with
      | none => (acc, m)
      | some v =>
        let acc' := acc ++ [v]
        let m' := max m v
        if count < acc'.length then (acc', m')
        else readLoop endIdx count cs acc' m').1.length ≤ count + 1
    cases hp : chunkParse endIdx c with
    | none => simpa using Nat.le_succ_of_le h
    | some v =>
      simp only
      by_cases hbr : count < (acc ++ [v]).length
      · rw [if_pos hbr]
        simp only [List.length_append, List.length_cons, List.length_nil] at *
        omega
      · rw [if_neg hbr]
        exact ih (acc ++ [v]) (max m v) (by simpa using Nat.not_lt.mp hbr)

/-! ### Lemmas: acceptance and regeneration in `readIndices` -/

theorem readIndices_accept {rng : Nat → Nat} {endIdx count : Nat}
    {chunks : List (List Char)} {w : Bool}
    (h1 : (readLoop endIdx count chunks [] 0).1.length = count)
    (h2 : endIdx - (readLoop endIdx count chunks [] 0).2 ≤ 10000000) :
    readIndices rng endIdx count (some chunks) w =
      some ⟨(readLoop endIdx count chunks [] 0).1, chunks, false⟩ := by
  simp only [readIndices]
  rw [if_neg]
  push_neg
  exact ⟨Nat.not_lt.mp (by omega), h1⟩

theorem readIndices_reject {rng : Nat → Nat} {endIdx count : Nat}
    {chunks : List (List Char)} {w : Bool}
    (h : 10000000 < endIdx - (readLoop endIdx count chunks [] 0).2 ∨
      (readLoop endIdx count chunks [] 0).1.length ≠ count) :
    readIndices rng endIdx count (some chunks) w =
      regenResult rng endIdx count w := by
  simp only [readIndices]
  rw [if_pos h]

theorem regenResult_true (rng : Nat → Nat) (endIdx count : Nat) :
    regenResult rng endIdx count true =
      some ⟨genValues rng endIdx count, (genValues rng endIdx count).map encodeLine,
        true⟩ := by
  simp [regenResult, generateIndices]

theorem regenResult_inv {rng : Nat → Nat} {endIdx count : Nat} {w : Bool}
    {r : LoadResult} (h : regenResult rng endIdx count w = some r) :
    w = true ∧ r = ⟨genValues rng endIdx count,
      (genValues rng endIdx count).map encodeLine, true⟩ := by
  cases w with
  | false => simp [regenResult, generateIndices] at h
  | true =>
    rw [regenResult_true] at h
    exact ⟨rfl, (Option.some_inj.mp h).symm⟩

theorem genValues_length (rng : Nat → Nat) (endIdx count : Nat) :
    (genValues rng endIdx count).length = count := by
  simp [genValues]

theorem genValues_mem {rng : Nat → Nat} {endIdx count v : Nat}
    (h : 1 ≤ endIdx) (hv : v ∈ genValues rng endIdx count) : v < endIdx := by
  simp only [genValues, List.mem_map, List.mem_range] at hv
  obtain ⟨i, _, rfl⟩ := hv
  exact Nat.mod_lt _ h

theorem parsedVals_map_encodeLine {endIdx : Nat} (hbound : endIdx ≤ 2 ^ 63) :
    ∀ vs : List Nat, (∀ v ∈ vs, v < endIdx) →
    parsedVals endIdx (vs.map encodeLine) = vs := by
  intro vs
  induction vs with
  | nil => intro _; simp [parsedVals]
  | cons v tl ih =>
    intro hmem
    have hv : chunkParse endIdx (encodeLine v) = some v :=
      chunkParse_encodeLine (hmem v (List.mem_cons_self v tl)) hbound
    simp only [List.map_cons, parsedVals, List.filterMap_cons, hv]
    have := ih (fun u hu => hmem u (List.mem_cons_of_mem v hu))
    simp only [parsedVals] at this
    rw [this]

theorem encodeLine_all_valid {endIdx : Nat} (hbound : endIdx ≤ 2 ^ 63)
    {vs : List Nat} (hmem : ∀ v ∈ vs, v < endIdx) :
    ∀ c ∈ vs.map encodeLine, (chunkParse endIdx c).isSome = true := by
  intro c hc
  obtain ⟨v, hv, rfl⟩ := List.mem_map.mp hc
  rw [chunkParse_encodeLine (hmem v hv) hbound]
  rfl

theorem readLoop_map_encodeLine {endIdx count : Nat} (hbound : endIdx ≤ 2 ^ 63)
    {vs : List Nat} (hmem : ∀ v ∈ vs, v < endIdx) (hlen : vs.length ≤ count) :
    readLoop endIdx count (vs.map encodeLine) [] 0 = (vs, listMax vs) := by
  rw [readLoop_all_valid (vs.map encodeLine) (encodeLine_all_valid hbound hmem)
    (by simpa using hlen)]
  rw [parsedVals_map_encodeLine hbound vs hmem]

/-- Reloading a file that is exactly the encoding of a value list `vs` of
length `count`, all values in range, accepts `vs` unchanged provided the
freshness heuristic `endIdx - max ≤ 10000000` holds. -/
theorem readIndices_reload_encoded {rng2 : Nat → Nat} {endIdx count : Nat}
    {vs : List Nat} {w2 : Bool} (hbound : endIdx ≤ 2 ^ 63)
    (hmem : ∀ v ∈ vs, v < endIdx) (hlen : vs.length = count)
    (hgap : endIdx - listMax vs ≤ 10000000) :
    readIndices rng2 endIdx count (some (vs.map encodeLine)) w2 =
      some ⟨vs, vs.map encodeLine, false⟩ := by
  have hrl := @readLoop_map_encodeLine endIdx count hbound vs hmem (le_of_eq hlen)
  have hacc := @readIndices_accept rng2 endIdx count (vs.map encodeLine) w2
    (by rw [hrl]; exact hlen) (by rw [hrl]; exact hgap)
  rw [hrl] at hacc
  exact hacc

/-! ### Claim theorems -/

/-- C1 counterexample: with `bound = 10000002`, `count = 1`, the first load
(missing file) generates `[0]` and persists it; the second load with the same
`(bound, count)` reads that very file back but regenerates (freshness
heuristic fails), producing a different sequence `[1]`.  So loading twice
with unchanged `(bound, count)` does not always replay the same sequence. -/
theorem c1_idempotence_counterexample :
    readIndices (fun _ => 0) 10000002 1 none true =
      some ⟨[0], [['0', '\n']], true⟩ ∧
    readIndices (fun _ => 1) 10000002 1 (some [['0', '\n']]) true =
      some ⟨[1], [['1', '\n']], true⟩ ∧
    ([1] : List Nat) ≠ [0] := by
  refine ⟨by decide, by decide, by decide⟩

/-- C1 (amended): loading twice in succession with unchanged `(bound, count)`
yields the identical ordered sequence, the second load reading the file left
by the first with no regeneration, provided `1 ≤ bound ≤ 2⁶³` and the first
load's sequence satisfies the freshness heuristic
`bound - max(indices) ≤ 10000000`. -/
theorem c1_second_load_identical (rng1 rng2 : Nat → Nat) (endIdx count : Nat)
    (file0 : Option (List (List Char))) (w1 w2 : Bool) (r1 : LoadResult)
    (h1 : 1 ≤ endIdx) (hbound : endIdx ≤ 2 ^ 63)
    (hload : readIndices rng1 endIdx count file0 w1 = some r1)
    (hgap : endIdx - listMax r1.indices ≤ 10000000) :
    readIndices rng2 endIdx count (some r1.file) w2 =
      some ⟨r1.indices, r1.file, false⟩ := by
  cases file0 with
  | none =>
    simp only [readIndices] at hload
    obtain ⟨-, hr⟩ := regenResult_inv hload
    subst hr
    exact readIndices_reload_encoded hbound (fun v hv => genValues_mem h1 hv)
      (genValues_length rng1 endIdx count) hgap
  | some chunks =>
    simp only [readIndices] at hload
    by_cases hc : 10000000 < endIdx - (readLoop endIdx count chunks [] 0).2 ∨
        (readLoop endIdx count chunks [] 0).1.length ≠ count
    · rw [if_pos hc] at hload
      obtain ⟨-, hr⟩ := regenResult_inv hload
      subst hr
      exact readIndices_reload_encoded hbound (fun v hv => genValues_mem h1 hv)
        (genValues_length rng1 endIdx count) hgap
    · rw [if_neg hc] at hload
      have hr : r1 = ⟨(readLoop endIdx count chunks [] 0).1, chunks, false⟩ :=
        (Option.some_inj.mp hload).symm
      subst hr
      push_neg at hc
      exact readIndices_accept hc.2 hc.1

theorem c1_second_load_identical_witness :
    readIndices (fun _ => 0) 1000 2
        (some (LoadResult.mk [5, 6] [['5', '\n'], ['6', '\n']] true).file) true =
      some ⟨(LoadResult.mk [5, 6] [['5', '\n'], ['6', '\n']] true).indices,
        (LoadResult.mk [5, 6] [['5', '\n'], ['6', '\n']] true).file, false⟩ :=
  c1_second_load_identical (fun i => i + 5) (fun _ => 0) 1000 2 none true true
    ⟨[5, 6], [['5', '\n'], ['6', '\n']], true⟩
    (by decide) (by decide) (by decide) (by decide)

/-- C2 counterexample: the persisted file with lines `"5\n"`, `"x\n"`
contains a line with non-numeric characters, yet with `bound = 1000`,
`count = 1` loading accepts the prefix `[5]` read before the invalid line and
performs no regeneration — a partial accept of a corrupt file. -/
theorem c2_corrupt_accept_counterexample :
    chunkParse 1000 ['x', '\n'] = none ∧
    readIndices (fun _ => 0) 1000 1 (some [['5', '\n'], ['x', '\n']]) true =
      some ⟨[5], [['5', '\n'], ['x', '\n']], false⟩ := by
  refine ⟨by decide, by decide⟩

/-- C2 (amended): an invalid line (non-numeric trailing characters, negative
value, or value ≥ bound) within the first `count + 1` lines aborts reading at
that line; the prefix read before it then goes through the normal acceptance
check, so full regeneration is triggered unless that prefix has exactly
`count` indices satisfying the freshness bound, in which case the prefix is
accepted. -/
theorem c2_invalid_line_aborts (rng : Nat → Nat) (endIdx count : Nat) (w : Bool)
    (pre : List (List Char)) (bad : List Char) (post : List (List Char))
    (hvalid : ∀ c ∈ pre, (chunkParse endIdx c).isSome = true)
    (hbad : chunkParse endIdx bad = none)
    (hlen : pre.length ≤ count) :
    readLoop endIdx count (pre ++ bad :: post) [] 0 =
      (parsedVals endIdx pre, listMax (parsedVals endIdx pre)) ∧
    ((parsedVals endIdx pre).length = count ∧
        endIdx - listMax (parsedVals endIdx pre) ≤ 10000000 →
      readIndices rng endIdx count (some (pre ++ bad :: post)) w =
        some ⟨parsedVals endIdx pre, pre ++ bad :: post, false⟩) ∧
    ((parsedVals endIdx pre).length ≠ count ∨
        10000000 < endIdx - listMax (parsedVals endIdx pre) →
      readIndices rng endIdx count (some (pre ++ bad :: post)) w =
        regenResult rng endIdx count w) := by
  have hstop := readLoop_stops_at_invalid pre bad post hvalid hbad hlen
  refine ⟨hstop, ?_, ?_⟩
  · rintro ⟨hl, hm⟩
    have ha := @readIndices_accept rng endIdx count (pre ++ bad :: post) w
      (by rw [hstop]; exact hl) (by rw [hstop]; exact hm)
    rw [hstop] at ha
    exact ha
  · intro hrej
    apply @readIndices_reject rng endIdx count (pre ++ bad :: post) w
    rw [hstop]
    exact hrej.symm

theorem c2_invalid_line_aborts_witness :
    readLoop 1000 1 ([['5', '\n']] ++ ['x', '\n'] :: []) [] 0 =
      (parsedVals 1000 [['5', '\n']], listMax (parsedVals 1000 [['5', '\n']])) ∧
    readIndices (fun _ => 0) 1000 1 (some ([['5', '\n']] ++ ['x', '\n'] :: [])) true =
      some ⟨parsedVals 1000 [['5', '\n']], [['5', '\n']] ++ ['x', '\n'] :: [], false⟩ := by
  have h := c2_invalid_line_aborts (fun _ => 0) 1000 1 true [['5', '\n']] ['x', '\n'] []
    (by decide) (by decide) (by decide)
  exact ⟨h.1, h.2.1 (by decide)⟩

/-- C3 counterexample: with `count = 1` and a file of three valid lines the
read loop stores 2 indices, exceeding `count` — the loop is bounded by
`count + 1`, not by `count` (it must overshoot by one to detect over-long
files; the resulting load then regenerates). -/
theorem c3_loop_bound_counterexample :
    (readLoop 1000 1 [['1', '\n'], ['2', '\n'], ['3', '\n']] [] 0).1.length = 2 ∧
    ¬((readLoop 1000 1 [['1', '\n'], ['2', '\n'], ['3', '\n']] [] 0).1.length ≤ 1) ∧
    readIndices (fun _ => 9) 1000 1
        (some [['1', '\n'], ['2', '\n'], ['3', '\n']]) true =
      some ⟨[9], [['9', '\n']], true⟩ := by
  refine ⟨by decide, by decide, by decide⟩

/-- C3 (amended): the read loop is bounded by `count + 1` stored indices (or
end of file / first invalid line); the read-back cache is accepted, with no
regeneration, iff the number of indices read equals exactly `count` and
`bound - maxIndexSeen ≤ 10000000`; otherwise the contents are discarded and
a new set is generated.  In particular a maximum index more than `10000000`
below `bound - 1` triggers regeneration. -/
theorem c3_accept_iff (rng : Nat → Nat) (endIdx count : Nat) (w : Bool)
    (chunks : List (List Char)) :
    (readLoop endIdx count chunks [] 0).1.length ≤ count + 1 ∧
    ((readLoop endIdx count chunks [] 0).1.length = count ∧
        endIdx - (readLoop endIdx count chunks [] 0).2 ≤ 10000000 →
      readIndices rng endIdx count (some chunks) w =
        some ⟨(readLoop endIdx count chunks [] 0).1, chunks, false⟩) ∧
    ((readLoop endIdx count chunks [] 0).1.length ≠ count ∨
        10000000 < endIdx - (readLoop endIdx count chunks [] 0).2 →
      readIndices rng endIdx count (some chunks) w =
        regenResult rng endIdx count w) ∧
    ((readLoop endIdx count chunks [] 0).2 + 10000000 < endIdx - 1 →
      readIndices rng endIdx count (some chunks) w =
        regenResult rng endIdx count w) := by
  refine ⟨readLoop_length_le chunks [] 0 (by simp), fun h => readIndices_accept h.1 h.2,
    fun h => readIndices_reject h.symm,
    fun h => readIndices_reject (Or.inl (by omega))⟩

theorem c3_accept_iff_witness :
    readIndices (fun _ => 0) 1000 2 (some [['5', '\n'], ['6', '\n']]) true =
      some ⟨(readLoop 1000 2 [['5', '\n'], ['6', '\n']] [] 0).1,
        [['5', '\n'], ['6', '\n']], false⟩ ∧
    readIndices (fun _ => 3) 10000002 1 (some [['0', '\n']]) true =
      regenResult (fun _ => 3) 10000002 1 true :=
  ⟨(c3_accept_iff (fun _ => 0) 1000 2 true [['5', '\n'], ['6', '\n']]).2.1 (by decide),
    (c3_accept_iff (fun _ => 3) 10000002 1 true [['0', '\n']]).2.2.2 (by decide)⟩

/-- C5: for `bound ≥ 1`, a freshly generated IndexSet has exactly `count`
elements, each in `[0, bound)`; the persisted file receives exactly those
values, one encoded line per value, in generation order (the new file is
entirely this encoding, any prior content being overwritten by the
truncating open); generation fails exactly when the file cannot be opened
for writing. -/
theorem c5_generate_spec (rng : Nat → Nat) (endIdx count : Nat) (h : 1 ≤ endIdx) :
    ∃ l f, generateIndices rng endIdx count true = some (l, f) ∧
      l.length = count ∧ (∀ v ∈ l, v < endIdx) ∧
      f = l.map encodeLine ∧
      (∀ i, i < count → l[i]? = some (rng i % endIdx)) ∧
      generateIndices rng endIdx count false = none := by
  refine ⟨genValues rng endIdx count, (genValues rng endIdx count).map encodeLine,
    rfl, genValues_length rng endIdx count, fun v hv => genValues_mem h hv, rfl,
    ?_, rfl⟩
  intro i hi
  simp [genValues, hi]

theorem c5_generate_spec_witness :
    ∃ l f, generateIndices (fun i => i) 10 3 true = some (l, f) ∧
      l.length = 3 ∧ (∀ v ∈ l, v < 10) ∧
      f = l.map encodeLine ∧
      (∀ i, i < 3 → l[i]? = some ((fun i : Nat => i) i % 10)) ∧
      generateIndices (fun i => i) 10 3 false = none :=
  c5_generate_spec (fun i => i) 10 3 (by decide)

/-- C6: the initialization phase writes the slots in strictly increasing
index order, and afterwards the value at every index `i < endIdx` is
`1e-9 * (i mod 79)`; in particular for an array of 1000 doubles,
`arena[5] = 5e-9`. -/
theorem c6_init_values (endIdx : Nat) (arr0 : Nat → ℚ) (i : Nat) (h : i < endIdx) :
    initArena endIdx arr0 i = (1 / 1000000000 : ℚ) * ((i % 79 : Nat) : ℚ) ∧
    List.Pairwise (· < ·) (initWriteOrder endIdx) ∧
    initArena 1000 (fun _ => 0) 5 = 5 / 1000000000 := by
  have main : ∀ n : Nat, ∀ a0 : Nat → ℚ, ∀ j : Nat, j < n →
      initArena n a0 j = (1 / 1000000000 : ℚ) * ((j % 79 : Nat) : ℚ) := by
    intro n
    induction n with
    | zero => intro a0 j hj; exact absurd hj (Nat.not_lt_zero j)
    | succ n ih =>
      intro a0 j hj
      have hstep : initArena (n + 1) a0 = initStep (initArena n a0) n := by
        rw [initArena, initWriteOrder, List.range_succ, List.foldl_append]
        rfl
      rw [hstep, initStep]
      by_cases hji : j = n
      · subst hji; rw [if_pos rfl]
      · rw [if_neg hji]
        exact ih a0 j (by omega)
  refine ⟨main endIdx arr0 i h, ?_, ?_⟩
  · exact List.pairwise_lt_range endIdx
  · rw [main 1000 (fun _ => 0) 5 (by norm_num)]
    norm_num

theorem c6_init_values_witness :
    initArena 1000 (fun _ => 0) 5 = (1 / 1000000000 : ℚ) * ((5 % 79 : Nat) : ℚ) ∧
    List.Pairwise (· < ·) (initWriteOrder 1000) ∧
    initArena 1000 (fun _ => 0) 5 = 5 / 1000000000 :=
  c6_init_values 1000 (fun _ => 0) 5 (by norm_num)

/-- C7: the access phase is the left-to-right fold, in persisted order, of
the accumulation `result += arena[u]` — stated for an arbitrary
(not necessarily associative) addition — and the accumulated value of a run
does not depend on the page mode, only on the array size and the IndexSet. -/
theorem c7_access_sum :
    (∀ pm1 pm2 : PageMode, ∀ endIdx : Nat, ∀ indices : List Nat,
      benchRun pm1 endIdx indices = benchRun pm2 endIdx indices) ∧
    (∀ pm : PageMode, ∀ endIdx : Nat, ∀ indices : List Nat,
      benchRun pm endIdx indices =
        accessLoop (· + ·) (initArena endIdx (fun _ => 0)) indices 0) ∧
    (∀ (α : Type) (add : α → α → α) (arena : Nat → α) (z : α)
        (l : List Nat) (u : Nat),
      accessLoop add arena (l ++ [u]) z = add (accessLoop add arena l z) (arena u)) := by
  refine ⟨fun _ _ _ _ => rfl, fun _ _ _ => rfl, fun α add arena z l u => ?_⟩
  simp [accessLoop]

/-- C8: for every configurable array size (0 to 128 GiB in whole GiB), the
`numIndices = endIdx * 0.03` computed in binary64 arithmetic equals
`floor(elementCount * 0.03)` in exact rational arithmetic, where
`elementCount = sizeGiB * 2^30 / 8`. -/
theorem c8_numIndices_floor (s : Nat) (hs : s ≤ 128) :
    numIndicesComputed s = ⌊((s * 134217728 : Nat) : ℚ) * (3 / 100)⌋₊ := by
  have key : ∀ t : Nat, t ≤ 128 →
      numIndicesComputed t = 3 * (t * 134217728) / 100 := by decide
  have hcast : ((s * 134217728 : Nat) : ℚ) * (3 / 100)
      = ((3 * (s * 134217728) : Nat) : ℚ) / ((100 : Nat) : ℚ) := by
    push_cast
    ring
  rw [key s hs, hcast, Nat.floor_div_nat, Nat.floor_natCast]

theorem c8_numIndices_floor_witness :
    numIndicesComputed 32 = ⌊((32 * 134217728 : Nat) : ℚ) * (3 / 100)⌋₊ :=
  c8_numIndices_floor 32 (by decide)

/-- C4 counterexample: on the abort path where THP advice fails
(`madvise(MADV_HUGEPAGE)` returns nonzero) after a successful `mmap`, the
program exits without ever invoking `munmap`: the mapping is created
(one `mapped` event) but `release` is invoked zero times, not once. -/
theorem c4_release_counterexample :
    (mainModel true false (some (some ("always [madvise] never".toList)))
        (fun _ => 0) none true 1000 1 true false).events.count Ev.mapped = 1 ∧
    (mainModel true false (some (some ("always [madvise] never".toList)))
        (fun _ => 0) none true 1000 1 true false).events.count Ev.unmapped = 0 := by
  refine ⟨by decide, by decide⟩

/-- C4 (amended): after a successful `mmap`, at most one mapping is ever
live (exactly one `mapped` event) and `munmap` is invoked exactly once on
every exit path except the madvise-failure abort, where the program exits
without unmapping (the OS reclaims the region at process exit). -/
theorem c4_release_on_exit (thp hugetlb : Bool)
    (thpFile : Option (Option (List Char))) (rng : Nat → Nat)
    (idxFile : Option (List (List Char))) (w : Bool) (endIdx count : Nat)
    (madviseOk : Bool) (r : LoadResult)
    (hthp : thp = true → thpEnabled thpFile = true)
    (hidx : readIndices rng endIdx count idxFile w = some r) :
    (mainModel thp hugetlb thpFile rng idxFile w endIdx count true madviseOk).events
      = if thp = true ∧ madviseOk = false then [Ev.mapped]
        else [Ev.mapped, Ev.unmapped] := by
  cases thp with
  | false => simp [mainModel, hidx]
  | true =>
    cases madviseOk with
    | false => simp [mainModel, hidx, hthp rfl]
    | true => simp [mainModel, hidx, hthp rfl]

theorem c4_release_on_exit_witness :
    (mainModel false false none (fun _ => 0) none true 1000 1 true true).events
      = if false = true ∧ true = false then [Ev.mapped]
        else [Ev.mapped, Ev.unmapped] :=
  c4_release_on_exit false false none (fun _ => 0) none true 1000 1 true
    ⟨[0], [['0', '\n']], true⟩ (fun h => absurd h (by decide)) (by decide)

/-- C9: in TransparentHuge mode, if the THP state file cannot be opened or
its first line cannot be read, the check treats the feature exactly as
disabled and the program exits with status 1 before any memory is mapped
(no mapping events at all). -/
theorem c9_thp_unreadable_fails_closed (thp hugetlb : Bool)
    (thpFile : Option (Option (List Char))) (rng : Nat → Nat)
    (idxFile : Option (List (List Char))) (w : Bool) (endIdx count : Nat)
    (mmapOk madviseOk : Bool)
    (hthp : thp = true) (hfile : thpFile = none ∨ thpFile = some none) :
    thpEnabled thpFile = false ∧
    mainModel thp hugetlb thpFile rng idxFile w endIdx count mmapOk madviseOk =
      ⟨1, []⟩ := by
  subst hthp
  have he : thpEnabled thpFile = false := by
    cases hfile with
    | inl hf => rw [hf]; rfl
    | inr hf => rw [hf]; rfl
  exact ⟨he, by simp [mainModel, he]⟩

theorem c9_thp_unreadable_fails_closed_witness :
    thpEnabled none = false ∧
    mainModel true false none (fun _ => 0) none true 1000 1 true true = ⟨1, []⟩ :=
  c9_thp_unreadable_fails_closed true false none (fun _ => 0) none true 1000 1
    true true rfl (Or.inl rfl)

/-- C10: every successfully returned IndexSet is either entirely the prefix
read from the file (acceptance path, file untouched) or entirely the freshly
generated sequence (regeneration path, after the vector is cleared) — never
a mixture of the two. -/
theorem c10_no_mixture (rng : Nat → Nat) (endIdx count : Nat)
    (file : Option (List (List Char))) (w : Bool) (r : LoadResult)
    (h : readIndices rng endIdx count file w = some r) :
    (r.regenerated = false ∧ ∃ chunks, file = some chunks ∧
        r.indices = (readLoop endIdx count chunks [] 0).1 ∧ r.file = chunks) ∨
    (r.regenerated = true ∧ r.indices = genValues rng endIdx count ∧
        r.file = (genValues rng endIdx count).map encodeLine) := by
  cases file with
  | none =>
    simp only [readIndices] at h
    obtain ⟨-, hr⟩ := regenResult_inv h
    subst hr
    exact Or.inr ⟨rfl, rfl, rfl⟩
  | some chunks =>
    simp only [readIndices] at h
    by_cases hc : 10000000 < endIdx - (readLoop endIdx count chunks [] 0).2 ∨
        (readLoop endIdx count chunks [] 0).1.length ≠ count
    · rw [if_pos hc] at h
      obtain ⟨-, hr⟩ := regenResult_inv h
      subst hr
      exact Or.inr ⟨rfl, rfl, rfl⟩
    · rw [if_neg hc] at h
      have hr : r = ⟨(readLoop endIdx count chunks [] 0).1, chunks, false⟩ :=
        (Option.some_inj.mp h).symm
      subst hr
      exact Or.inl ⟨rfl, chunks, rfl, rfl, rfl⟩

theorem c10_no_mixture_witness :
    ((⟨[0], [['0', '\n']], true⟩ : LoadResult).regenerated = false ∧
      ∃ chunks, (none : Option (List (List Char))) = some chunks ∧
        (⟨[0], [['0', '\n']], true⟩ : LoadResult).indices =
          (readLoop 10 1 chunks [] 0).1 ∧
        (⟨[0], [['0', '\n']], true⟩ : LoadResult).file = chunks) ∨
    ((⟨[0], [['0', '\n']], true⟩ : LoadResult).regenerated = true ∧
      (⟨[0], [['0', '\n']], true⟩ : LoadResult).indices =
        genValues (fun _ => 0) 10 1 ∧
      (⟨[0], [['0', '\n']], true⟩ : LoadResult).file =
        (genValues (fun _ => 0) 10 1).map encodeLine) :=
  c10_no_mixture (fun _ => 0) 10 1 none true ⟨[0], [['0', '\n']], true⟩ (by decide)

